import Mathlib

/-!
Verification of the custom-command / custom-prompt core of this repository.

The Rust sources embedded here:
  - `core/src/custom_command_expansion.rs` (numeric placeholder expansion for commands)
  - `core/src/custom_prompt_expansion.rs` (named and numeric expansion for prompts)
  - `core/src/custom_commands.rs` (frontmatter parsing, per-root discovery, scope merge)
  - `protocol/src/custom_commands.rs` (data types)

Strings are modelled as Lean `String` / `List Char`.  The characters `'$'`,
digits and `A`–`Z` are single-byte in UTF-8, so the byte-level tests of the
Rust code (`bytes[1]`, `starts_with`) coincide with the character-level
tests used here.  External crates (the `shlex` tokenizer, `serde_yaml`,
`tokio::fs`) are abstracted: expansion functions take the already-produced
token list, the YAML document parser is a function parameter, and the
directory walk is modelled as the list of candidate files it yields, in
traversal order.
-/

/-! Section: Character classes used by the prompt-argument regex `\$[A-Z][A-Z0-9_]*` -/

/-- Letters `A`–`Z`, the first character class of `PROMPT_ARG_REGEX`. -/
def isUpperAZ (c : Char) : Bool := 'A' ≤ c && c ≤ 'Z'

/-- Continuation class `[A-Z0-9_]` of `PROMPT_ARG_REGEX`. -/
def isNameChar (c : Char) : Bool := isUpperAZ c || ('0' ≤ c && c ≤ '9') || c = '_'

/-- Digits `1`–`9`, the positional-placeholder digits of the numeric dialect. -/
def isDigit19 (c : Char) : Bool := '1' ≤ c && c ≤ '9'

/-! Section: Association-list model of `std::collections::HashMap`

`HashMap::insert` replaces the value stored for an existing key; `get` /
`contains_key` observe the most recent insertion.  An association list with
in-place replacement has exactly these observations. -/

/-- Model of `HashMap::insert`: replace the value if the key is present,
otherwise append the binding. -/
def insertAssoc {α : Type} : List (String × α) → String → α → List (String × α)
  | [], k, v => [(k, v)]
  | (k0, v0) :: rest, k, v =>
    if k0 = k then (k0, v) :: rest else (k0, v0) :: insertAssoc rest k v

/-- Model of `HashMap::get`. -/
def lookupAssoc {α : Type} : List (String × α) → String → Option α
  | [], _ => none
  | (k0, v0) :: rest, k => if k0 = k then some v0 else lookupAssoc rest k

/-- Model of `HashMap::contains_key`. -/
def containsKey {α : Type} (m : List (String × α)) (k : String) : Bool :=
  (lookupAssoc m k).isSome

/-! Section: Numeric dialect (custom_command_expansion.rs, `expand_placeholders`)

The Rust loop scans for `'$'`, copies everything before it verbatim, then:
with at least one following byte, `$$` emits a literal `$$` advancing two;
`$1`..`$9` emits the `(digit-1)`-indexed argument if present (else nothing)
advancing two; otherwise, if the remainder is longer than `"ARGUMENTS"` and
the text after `'$'` starts with `ARGUMENTS`, it emits the arguments joined
by a single space when non-empty, advancing past the word; otherwise the
`'$'` is copied and the scan advances one character.  The source's
byte-length guard `rest.len() > "ARGUMENTS".len()` is implied by the prefix
match (the prefix alone occupies nine bytes after the one-byte `'$'`), so
the literal nine-character pattern below is equivalent to it.  The source
tests the digit case before the `ARGUMENTS` case; the two are disjoint
(`'A'` is not a digit), so pattern order below is immaterial.  In the final
`'$'`-arm the character after the `'$'` is emitted together with it: the
source advances one character and its next copy-up-to-`'$'` step emits that
character, which is never `'$'` there (the `$$` arm already matched). -/

/-- Scanner of `expand_placeholders` (custom_command_expansion.rs lines 31–69)
over the character list of the template. -/
def expandPlaceholdersAux (args : List String) : List Char → List Char
  | [] => []
  | '$' :: '$' :: cs2 => '$' :: '$' :: expandPlaceholdersAux args cs2
  | '$' :: 'A' :: 'R' :: 'G' :: 'U' :: 'M' :: 'E' :: 'N' :: 'T' :: 'S' :: rest =>
    (if args.isEmpty then [] else (String.intercalate " " args).data) ++
      expandPlaceholdersAux args rest
  | '$' :: c2 :: cs2 =>
    if isDigit19 c2 then
      (match args[c2.toNat - '1'.toNat]? with
        | some a => a.data
        | none => []) ++ expandPlaceholdersAux args cs2
    else '$' :: c2 :: expandPlaceholdersAux args cs2
  | c :: cs => c :: expandPlaceholdersAux args cs

/-- Embedding of `expand_placeholders` from custom_command_expansion.rs. -/
def expand_placeholders (content : String) (args : List String) : String :=
  ⟨expandPlaceholdersAux args content.data⟩

/-- Scanner of `expand_numeric_placeholders` (custom_prompt_expansion.rs
lines 144–182); the Rust function body is identical, character for
character, to `expand_placeholders` in custom_command_expansion.rs. -/
def expandNumericPlaceholdersAux (args : List String) : List Char → List Char
  | [] => []
  | '$' :: '$' :: cs2 => '$' :: '$' :: expandNumericPlaceholdersAux args cs2
  | '$' :: 'A' :: 'R' :: 'G' :: 'U' :: 'M' :: 'E' :: 'N' :: 'T' :: 'S' :: rest =>
    (if args.isEmpty then [] else (String.intercalate " " args).data) ++
      expandNumericPlaceholdersAux args rest
  | '$' :: c2 :: cs2 =>
    if isDigit19 c2 then
      (match args[c2.toNat - '1'.toNat]? with
        | some a => a.data
        | none => []) ++ expandNumericPlaceholdersAux args cs2
    else '$' :: c2 :: expandNumericPlaceholdersAux args cs2
  | c :: cs => c :: expandNumericPlaceholdersAux args cs

/-- Embedding of `expand_numeric_placeholders` from custom_prompt_expansion.rs. -/
def expand_numeric_placeholders (content : String) (args : List String) : String :=
  ⟨expandNumericPlaceholdersAux args content.data⟩

/-! Section: Named dialect (custom_prompt_expansion.rs)

`PROMPT_ARG_REGEX` is `\$[A-Z][A-Z0-9_]*`.  `find_iter` yields the
leftmost, non-overlapping, maximal matches: a match starts at a `'$'`
immediately followed by `A`–`Z` and extends over the maximal run of
`[A-Z0-9_]`; since a match never contains `'$'`, scanning resumes directly
after it.  Both consumers of the iterator additionally test whether the
byte before the match is `'$'` (an escaped occurrence).  The scanners below
reproduce this one character at a time with an explicit state: `norm`
outside any match with the previous character known not to be `'$'`
(initially: no previous character); `pend` after reading a `'$'` that has
not been emitted yet because it may start a match, with `escaped` recording
whether the character before that `'$'` was itself `'$'`; `inName` inside a
match, carrying the escape flag and the name characters read so far. -/

/-- Scanner state for the `PROMPT_ARG_REGEX` iteration. -/
inductive ScanState : Type
  | norm
  | pend (escaped : Bool)
  | inName (escaped : Bool) (acc : List Char)

/-- Output of `expand_named_placeholders` for one complete regex match with
name `acc`: an escaped match is copied through (the preceding `'$'` was
already emitted by the `out` state), a supplied key is replaced by its
value, and an unsupplied key is copied as the original literal `$name`. -/
def emitName (m : List (String × String)) (escaped : Bool) (acc : List Char) : List Char :=
  if escaped then '$' :: acc
  else
    match lookupAssoc m (String.mk acc) with
    | some v => v.data
    | none => '$' :: acc

/-- Scanner of `expand_named_placeholders` (custom_prompt_expansion.rs
lines 120–142). -/
def expandNamedAux (m : List (String × String)) (st : ScanState) : List Char → List Char
  | [] =>
    match st with
    | .norm => []
    | .pend _ => ['$']
    | .inName escaped acc => emitName m escaped acc
  | c :: rest =>
    match st with
    | .norm =>
      if c = '$' then expandNamedAux m (.pend false) rest
      else c :: expandNamedAux m (.norm) rest
    | .pend escaped =>
      if isUpperAZ c then expandNamedAux m (.inName escaped [c]) rest
      else if c = '$' then '$' :: expandNamedAux m (.pend true) rest
      else '$' :: c :: expandNamedAux m (.norm) rest
    | .inName escaped acc =>
      if isNameChar c then expandNamedAux m (.inName escaped (acc ++ [c])) rest
      else if c = '$' then emitName m escaped acc ++ expandNamedAux m (.pend false) rest
      else emitName m escaped acc ++ c :: expandNamedAux m (.norm) rest

/-- Embedding of `expand_named_placeholders` from custom_prompt_expansion.rs. -/
def expand_named_placeholders (content : String) (args : List (String × String)) : String :=
  ⟨expandNamedAux args .norm content.data⟩

/-- Record one complete regex match for `prompt_argument_names`: escaped
matches and the literal `ARGUMENTS` are skipped, and a `HashSet` keeps only
the first occurrence of each name (custom_prompt_expansion.rs lines
105–116).  Returns the updated seen-set and name list. -/
def recordName (seen names : List String) (escaped : Bool) (acc : List Char) :
    List String × List String :=
  if escaped then (seen, names)
  else
    let n := String.mk acc
    if n = "ARGUMENTS" then (seen, names)
    else if n ∈ seen then (seen, names)
    else (seen ++ [n], names ++ [n])

/-- Scanner of `prompt_argument_names` (custom_prompt_expansion.rs lines
102–118). -/
def promptArgNamesAux (seen names : List String) (st : ScanState) : List Char → List String
  | [] =>
    match st with
    | .norm => names
    | .pend _ => names
    | .inName escaped acc => (recordName seen names escaped acc).2
  | c :: rest =>
    match st with
    | .norm =>
      if c = '$' then promptArgNamesAux seen names (.pend false) rest
      else promptArgNamesAux seen names (.norm) rest
    | .pend escaped =>
      if isUpperAZ c then promptArgNamesAux seen names (.inName escaped [c]) rest
      else if c = '$' then promptArgNamesAux seen names (.pend true) rest
      else promptArgNamesAux seen names (.norm) rest
    | .inName escaped acc =>
      if isNameChar c then promptArgNamesAux seen names (.inName escaped (acc ++ [c])) rest
      else
        let sn := recordName seen names escaped acc
        if c = '$' then promptArgNamesAux sn.1 sn.2 (.pend false) rest
        else promptArgNamesAux sn.1 sn.2 (.norm) rest

/-- Embedding of `prompt_argument_names` from custom_prompt_expansion.rs. -/
def prompt_argument_names (content : String) : List String :=
  promptArgNamesAux [] [] .norm content.data

/-! Section: Prompt expansion entry point (custom_prompt_expansion.rs)

`expand_custom_prompt_text` parses the invocation line, looks up a prompt,
tokenizes the rest of the line (via the external `shlex` crate, with a
whitespace-split fallback), and dispatches on the template's required
names.  The embedding below starts after invocation matching, catalog
lookup and tokenization: `command` is the `/prompts:name` display string
the source formats, `content` is the matched prompt's template, and
`tokens` is the token list produced from the rest of the line.  Both the
named path (`parse_prompt_inputs`) and the numeric path
(`parse_positional_args`) consume exactly this token list in the source;
their empty-input shortcuts coincide with the empty token list. -/

/-- Embedding of `PromptArgsError` from custom_prompt_expansion.rs. -/
inductive PromptArgsError : Type
  | MissingAssignment (token : String)
  | MissingKey (token : String)
deriving DecidableEq

/-- Embedding of `PromptExpansionError` from custom_prompt_expansion.rs. -/
inductive PromptExpansionError : Type
  | Args (command : String) (error : PromptArgsError)
  | MissingArgs (command : String) (missing : List String)
deriving DecidableEq

/-- Model of Rust `str::split_once('=')`: split at the first `'='`,
returning the text before and after it, or `none` when absent. -/
def splitOnceEqAux (acc : List Char) : List Char → Option (List Char × List Char)
  | [] => none
  | c :: rest => if c = '=' then some (acc, rest) else splitOnceEqAux (acc ++ [c]) rest

/-- Model of `token.split_once('=')` on strings. -/
def splitOnceEq (token : String) : Option (String × String) :=
  match splitOnceEqAux [] token.data with
  | none => none
  | some (k, v) => some (⟨k⟩, ⟨v⟩)

/-- Loop body of `parse_prompt_inputs` (custom_prompt_expansion.rs lines
90–98) over the already-tokenized input, accumulating the `HashMap`. -/
def parsePromptInputsAux (map : List (String × String)) :
    List String → Except PromptArgsError (List (String × String))
  | [] => .ok map
  | token :: rest =>
    match splitOnceEq token with
    | none => .error (.MissingAssignment token)
    | some (key, value) =>
      if key = "" then .error (.MissingKey token)
      else parsePromptInputsAux (insertAssoc map key value) rest

/-- Embedding of `parse_prompt_inputs` from custom_prompt_expansion.rs, starting from
the token list (an empty rest-of-line yields the empty token list and
hence the empty map, as in the source's early return). -/
def parse_prompt_inputs (tokens : List String) :
    Except PromptArgsError (List (String × String)) :=
  parsePromptInputsAux [] tokens

/-- Core of `expand_custom_prompt_text` (custom_prompt_expansion.rs lines
203–226), after invocation matching, catalog lookup and tokenization: if
the template has required names, parse `key=value` tokens, fail with
`MissingArgs` when any required name is unsupplied, else substitute named
placeholders; otherwise expand numeric placeholders positionally. -/
def expand_custom_prompt_tokens (command content : String) (tokens : List String) :
    Except PromptExpansionError String :=
  let required := prompt_argument_names content
  if required.isEmpty then
    .ok (expand_numeric_placeholders content tokens)
  else
    match parse_prompt_inputs tokens with
    | .error e => .error (.Args command e)
    | .ok inputs =>
      let missing := required.filter fun key => !containsKey inputs key
      if missing.isEmpty then .ok (expand_named_placeholders content inputs)
      else .error (.MissingArgs command missing)

/-! Section: Frontmatter parsing (custom_commands.rs, `parse_frontmatter`)

The YAML document parser (`serde_yaml::from_str`) is an external crate; it
is abstracted as a function parameter `yamlP` producing a `YamlValue`.
Everything after that point — the shape checks and the field decoding of
`parse_frontmatter_fields` — is embedded from the source.  Rust
`str::trim` / `trim_end_matches` are modelled on character lists. -/

/-- Abstract form of a parsed YAML document, covering the constructors
`parse_frontmatter_fields` distinguishes; every other `serde_yaml::Value`
(numbers, tagged values) is `other`, which the source handles only through
its catch-all error arms. -/
inductive YamlValue : Type
  | null
  | bool (b : Bool)
  | str (s : String)
  | seq (items : List YamlValue)
  | mapping (entries : List (YamlValue × YamlValue))
  | other

/-- The five optional fields returned by `parse_frontmatter_fields`. -/
structure FrontmatterFields : Type where
  description : Option String
  argument_hint : Option String
  allowed_tools : Option (List String)
  model : Option String
  disable_model_invocation : Option Bool
deriving DecidableEq

/-- Embedding of `parse_optional_string` from custom_commands.rs. -/
def parse_optional_string (value : YamlValue) (field : String) :
    Except String (Option String) :=
  match value with
  | .null => .ok none
  | .str s => .ok (some s)
  | _ => .error ("`" ++ field ++ "` must be a string")

/-- Embedding of `parse_optional_bool` from custom_commands.rs. -/
def parse_optional_bool (value : YamlValue) (field : String) :
    Except String (Option Bool) :=
  match value with
  | .null => .ok none
  | .bool b => .ok (some b)
  | _ => .error ("`" ++ field ++ "` must be a boolean")

/-- Element loop of `parse_string_list` from custom_commands.rs. -/
def stringListItems (field : String) : List YamlValue → Except String (List String)
  | [] => .ok []
  | item :: rest =>
    match item with
    | .str s =>
      match stringListItems field rest with
      | .ok out => .ok (s :: out)
      | .error e => .error e
    | _ => .error ("`" ++ field ++ "` must be a list of strings")

/-- Embedding of `parse_string_list` from custom_commands.rs. -/
def parse_string_list (value : YamlValue) (field : String) :
    Except String (Option (List String)) :=
  match value with
  | .null => .ok none
  | .seq items =>
    match stringListItems field items with
    | .ok out => .ok (some out)
    | .error e => .error e
  | _ => .error ("`" ++ field ++ "` must be a list of strings")

/-- Entry loop of `parse_frontmatter_fields` (custom_commands.rs lines
419–438): fold the mapping entries over the five mutable field slots,
rejecting non-string keys and unsupported field names. -/
def foldFrontmatterFields (st : FrontmatterFields) :
    List (YamlValue × YamlValue) → Except String FrontmatterFields
  | [] => .ok st
  | (key, value) :: rest =>
    match key with
    | .str key =>
      match key with
      | "description" =>
        match parse_optional_string value "description" with
        | .error e => .error e
        | .ok d => foldFrontmatterFields { st with description := d } rest
      | "argument-hint" =>
        match parse_optional_string value "argument-hint" with
        | .error e => .error e
        | .ok a => foldFrontmatterFields { st with argument_hint := a } rest
      | "argument_hint" =>
        match parse_optional_string value "argument-hint" with
        | .error e => .error e
        | .ok a => foldFrontmatterFields { st with argument_hint := a } rest
      | "allowed-tools" =>
        match parse_string_list value "allowed-tools" with
        | .error e => .error e
        | .ok t => foldFrontmatterFields { st with allowed_tools := t } rest
      | "model" =>
        match parse_optional_string value "model" with
        | .error e => .error e
        | .ok mo => foldFrontmatterFields { st with model := mo } rest
      | "disable-model-invocation" =>
        match parse_optional_bool value "disable-model-invocation" with
        | .error e => .error e
        | .ok b => foldFrontmatterFields { st with disable_model_invocation := b } rest
      | _ => .error ("unsupported frontmatter field `" ++ key ++ "`")
    | _ => .error "frontmatter keys must be strings"

/-- Embedding of `parse_frontmatter_fields` from custom_commands.rs, with the YAML
document parser abstracted as `yamlP`. -/
def parse_frontmatter_fields (yamlP : String → Except String YamlValue)
    (frontmatter : String) : Except String FrontmatterFields :=
  match yamlP frontmatter with
  | .error err => .error ("invalid frontmatter: " ++ err)
  | .ok yaml =>
    match yaml with
    | .mapping entries => foldFrontmatterFields ⟨none, none, none, none, none⟩ entries
    | .null => .ok ⟨none, none, none, none, none⟩
    | _ => .error "frontmatter must be a mapping"

/-- Embedding of `ParsedFrontmatter` from custom_commands.rs. -/
structure ParsedFrontmatter : Type where
  description : Option String
  argument_hint : Option String
  allowed_tools : Option (List String)
  model : Option String
  disable_model_invocation : Option Bool
  body : String
deriving DecidableEq

/-- Model of Rust `content.split_inclusive('\n')`: segments end with the
newline they contain; the final segment may lack one; the empty string
yields no segments. -/
def splitInclusiveNlAux (acc : List Char) : List Char → List (List Char)
  | [] => if acc.isEmpty then [] else [acc]
  | c :: rest =>
    if c = '\n' then (acc ++ [c]) :: splitInclusiveNlAux [] rest
    else splitInclusiveNlAux (acc ++ [c]) rest

/-- Model of `split_inclusive('\n')` on a character list. -/
def splitInclusiveNl (cs : List Char) : List (List Char) :=
  splitInclusiveNlAux [] cs

/-- Model of `line.trim_end_matches(['\r', '\n'])`. -/
def trimEndNl (cs : List Char) : List Char :=
  (cs.reverse.dropWhile fun c => c = '\r' || c = '\n').reverse

/-- Model of Rust `char::is_whitespace`: the Unicode `White_Space`
property, listed exhaustively — tab, line feed, vertical tab U+000B, form
feed U+000C, carriage return, space, next line U+0085, no-break space
U+00A0, ogham space mark U+1680, the U+2000–U+200A spaces, line separator
U+2028, paragraph separator U+2029, narrow no-break space U+202F, medium
mathematical space U+205F, and ideographic space U+3000. -/
def isRustWhitespace (c : Char) : Bool :=
  c = '\t' || c = '\n' || c.toNat = 0xB || c.toNat = 0xC || c = '\r' || c = ' ' ||
    c.toNat = 0x85 || c.toNat = 0xA0 || c.toNat = 0x1680 ||
    (0x2000 ≤ c.toNat && c.toNat ≤ 0x200A) ||
    c.toNat = 0x2028 || c.toNat = 0x2029 || c.toNat = 0x202F ||
    c.toNat = 0x205F || c.toNat = 0x3000

/-- Model of Rust `str::trim` (Unicode `White_Space` from both ends). -/
def trimChars (cs : List Char) : List Char :=
  ((cs.dropWhile isRustWhitespace).reverse.dropWhile isRustWhitespace).reverse

/-- Closing-delimiter scan of `parse_frontmatter` (custom_commands.rs lines
354–364): walk the remaining segments; a segment whose line trims to `---`
closes the block, everything before it is the frontmatter text and
everything after it is the body.  `none` means no closing delimiter. -/
def findFrontmatterClose : List (List Char) → Option (List Char × List (List Char))
  | [] => none
  | seg :: rest =>
    if trimChars (trimEndNl seg) = "---".data then some ([], rest)
    else
      match findFrontmatterClose rest with
      | some (fm, body) => some (seg ++ fm, body)
      | none => none

/-- Embedding of `parse_frontmatter` from custom_commands.rs.  The segments of
`split_inclusive` concatenate back to the input, so the body taken as the
segments after the closing delimiter equals the source's byte-offset slice
`content[consumed..]`. -/
def parse_frontmatter (yamlP : String → Except String YamlValue) (content : String) :
    Except String ParsedFrontmatter :=
  match splitInclusiveNl content.data with
  | [] => .ok ⟨none, none, none, none, none, ""⟩
  | firstSeg :: segs =>
    if trimChars (trimEndNl firstSeg) ≠ "---".data then
      .ok ⟨none, none, none, none, none, content⟩
    else
      match findFrontmatterClose segs with
      | none => .error "unterminated frontmatter block"
      | some (fm, bodySegs) =>
        let body : String := ⟨bodySegs.flatten⟩
        if (trimChars fm).isEmpty then .ok ⟨none, none, none, none, none, body⟩
        else
          match parse_frontmatter_fields yamlP ⟨fm⟩ with
          | .error e => .error e
          | .ok f =>
            .ok ⟨f.description, f.argument_hint, f.allowed_tools, f.model,
              f.disable_model_invocation, body⟩

/-! Section: Data types (protocol/src/custom_commands.rs) -/

/-- Embedding of `CustomCommandScope` from protocol/src/custom_commands.rs. -/
inductive CustomCommandScope : Type
  | User
  | Project
deriving DecidableEq

/-- Embedding of `CustomCommand` from protocol/src/custom_commands.rs (`PathBuf`
modelled as a string). -/
structure CustomCommand : Type where
  name : String
  path : String
  content : String
  description : Option String
  argument_hint : Option String
  allowed_tools : Option (List String)
  model : Option String
  disable_model_invocation : Option Bool
  scope : CustomCommandScope
  scope_subdir : Option String
deriving DecidableEq

/-- Embedding of `CustomCommandErrorInfo` from protocol/src/custom_commands.rs. -/
structure CustomCommandErrorInfo : Type where
  path : String
  message : String
deriving DecidableEq

/-- The `{scope:?}` debug rendering used in the duplicate-name message. -/
def scopeDebug : CustomCommandScope → String
  | .User => "User"
  | .Project => "Project"

/-! Section: Discovery (custom_commands.rs)

The directory walk issues filesystem operations through `tokio::fs`; the
walk itself (the explicit queue over subdirectories, symlink resolution,
I/O error reporting) is abstracted as the list of directory entries it
reaches that resolve to regular files, in traversal order, each carrying
its path, final file name, content, and the slash-joined subdirectory
relative to the scope root (`scope_subdir`, `none` at the root).  File
names are valid UTF-8 in this model, so the `file_stem().to_str()` failure
arm is not represented.  Everything per candidate after that point —
extension filtering, name derivation, the reserved-name check, the
duplicate check via the `seen` set, frontmatter parsing and entry
construction — is embedded from the source. -/

/-- Embedding of `RESERVED_COMMAND_NAMES` from custom_commands.rs. -/
def RESERVED_COMMAND_NAMES : List String :=
  ["model", "personality", "approvals", "permissions", "setup-elevated-sandbox",
   "experimental", "skills", "review", "new", "resume", "fork", "init", "compact",
   "collab", "agent", "diff", "mention", "status", "mcp", "logout", "quit", "exit",
   "feedback", "rollout", "ps", "test-approval"]

/-- Split a file name at its last `'.'`, returning the parts before and
after; `none` when the name has no `'.'` or its only `'.'` leads
(Rust `Path::file_stem` / `extension` semantics). -/
def lastDotSplit : List Char → Option (List Char × List Char)
  | [] => none
  | c :: rest =>
    match lastDotSplit rest with
    | some (before, after) => some (c :: before, after)
    | none => if c = '.' then some ([], rest) else none

/-- Model of `Path::file_stem` on the final path component: the portion
before the last `'.'`, or the whole name when there is none or the only
`'.'` is leading. -/
def fileStem (fileName : String) : String :=
  match lastDotSplit fileName.data with
  | none => fileName
  | some ([], _) => fileName
  | some (before, _) => ⟨before⟩

/-- Model of `Path::extension` on the final path component. -/
def extensionOf (fileName : String) : Option String :=
  match lastDotSplit fileName.data with
  | none => none
  | some ([], _) => none
  | some (_, after) => some ⟨after⟩

/-- Model of `eq_ignore_ascii_case` (ASCII-only lowering, as in Rust). -/
def eqIgnoreAsciiCase (a b : String) : Bool :=
  a.data.map Char.toLower == b.data.map Char.toLower

/-- Embedding of `is_markdown` from custom_commands.rs: case-insensitive `md` extension
on the file name. -/
def is_markdown (fileName : String) : Bool :=
  match extensionOf fileName with
  | some ext => eqIgnoreAsciiCase ext "md"
  | none => false

/-- One entry reached by the walk that resolved to a regular file: its full
path, final file name, content, and subdirectory relative to the scope
root. -/
structure CandidateFile : Type where
  path : String
  fileName : String
  content : String
  subdir : Option String
deriving DecidableEq

/-- Accumulator of `discover_commands_in_root`: the commands and errors
collected so far and the per-scope `seen` name set. -/
structure RootAcc : Type where
  commands : List CustomCommand
  errors : List CustomCommandErrorInfo
  seen : List String
deriving DecidableEq

/-- Per-candidate body of the walk loop in `discover_commands_in_root`
(custom_commands.rs lines 232–296): skip non-markdown files; derive the
name from the file stem; reject reserved built-in names (before the seen
set is touched); reject names already seen in this scope (inserting
otherwise); parse the frontmatter, recording a parse error; otherwise push
the constructed `CustomCommand`. -/
def processCandidate (yamlP : String → Except String YamlValue)
    (scope : CustomCommandScope) (acc : RootAcc) (f : CandidateFile) : RootAcc :=
  if !is_markdown f.fileName then acc
  else
    let name := fileStem f.fileName
    if name ∈ RESERVED_COMMAND_NAMES then
      ⟨acc.commands,
       acc.errors ++ [⟨f.path, "`/" ++ name ++ "` conflicts with a built-in command name"⟩],
       acc.seen⟩
    else if name ∈ acc.seen then
      ⟨acc.commands,
       acc.errors ++
         [⟨f.path, "duplicate command name `/" ++ name ++ "` in " ++ scopeDebug scope ++ " scope"⟩],
       acc.seen⟩
    else
      match parse_frontmatter yamlP f.content with
      | .error message =>
        ⟨acc.commands, acc.errors ++ [⟨f.path, message⟩], acc.seen ++ [name]⟩
      | .ok parsed =>
        ⟨acc.commands ++
           [⟨name, f.path, parsed.body, parsed.description, parsed.argument_hint,
             parsed.allowed_tools, parsed.model, parsed.disable_model_invocation,
             scope, f.subdir⟩],
         acc.errors, acc.seen ++ [name]⟩

/-- Sort relation of the catalog: `sort_by(|a, b| a.name.cmp(&b.name))`. -/
def cmdNameLE (a b : CustomCommand) : Prop := a.name ≤ b.name

instance : DecidableRel cmdNameLE := fun a b => inferInstanceAs (Decidable (a.name ≤ b.name))

instance : IsTotal CustomCommand cmdNameLE := ⟨fun a b => le_total a.name b.name⟩

instance : IsTrans CustomCommand cmdNameLE := ⟨fun _ _ _ h1 h2 => le_trans h1 h2⟩

/-- Sort relation of the error list: `sort_by(|a, b| a.path.cmp(&b.path))`. -/
def errPathLE (a b : CustomCommandErrorInfo) : Prop := a.path ≤ b.path

instance : DecidableRel errPathLE := fun a b => inferInstanceAs (Decidable (a.path ≤ b.path))

instance : IsTotal CustomCommandErrorInfo errPathLE := ⟨fun a b => le_total a.path b.path⟩

instance : IsTrans CustomCommandErrorInfo errPathLE := ⟨fun _ _ _ h1 h2 => le_trans h1 h2⟩

/-- Embedding of `discover_commands_in_root` from custom_commands.rs, over the candidate
files the walk reaches in traversal order: fold the per-candidate step from
the empty accumulator, then sort the commands by name (a stable sort, as
Rust's `sort_by`).  The root's error list is not sorted here. -/
def discover_commands_in_root (yamlP : String → Except String YamlValue)
    (scope : CustomCommandScope) (files : List CandidateFile) :
    List CustomCommand × List CustomCommandErrorInfo :=
  let acc := files.foldl (processCandidate yamlP scope) ⟨[], [], []⟩
  (List.insertionSort cmdNameLE acc.commands, acc.errors)

/-- Merge step of `discover_custom_commands_with_roots` (custom_commands.rs
lines 85–101), over the per-scope results already discovered: key the
Project commands by name in a map, keep every map value, append each User
command whose name the map does not contain, then sort the catalog by name
and the accumulated errors by path. -/
def discover_custom_commands_merge (project_commands user_commands : List CustomCommand)
    (errors : List CustomCommandErrorInfo) :
    List CustomCommand × List CustomCommandErrorInfo :=
  let project_by_name :=
    project_commands.foldl (fun m command => insertAssoc m command.name command) []
  let commands :=
    project_by_name.map Prod.snd ++
      user_commands.filter fun command => !containsKey project_by_name command.name
  (List.insertionSort cmdNameLE commands, List.insertionSort errPathLE errors)

/-- Project-scope sample entry named `deploy`. -/
def sampleProjDeploy : CustomCommand :=
  ⟨"deploy", "proj/.codex/commands/deploy.md", "project deploy", none, none, none, none,
    none, .Project, none⟩

/-- Project-scope sample entry named `hello`. -/
def sampleProjHello : CustomCommand :=
  ⟨"hello", "proj/.codex/commands/hello.md", "project hello", none, none, none, none,
    none, .Project, none⟩

/-- User-scope sample entry named `deploy` (shadowed by the Project one). -/
def sampleUserDeploy : CustomCommand :=
  ⟨"deploy", "user/commands/deploy.md", "user deploy", none, none, none, none,
    none, .User, none⟩

/-- User-scope sample entry named `zeta` (not shadowed). -/
def sampleUserZeta : CustomCommand :=
  ⟨"zeta", "user/commands/zeta.md", "user zeta", none, none, none, none,
    none, .User, none⟩

/-! Section: Derived notions used to state the claims -/

/-- A caller token of the well-formed shape `key=value` with a non-empty
key: exactly the tokens `parse_prompt_inputs` accepts. -/
def wellFormedToken (t : String) : Bool :=
  match splitOnceEq t with
  | none => false
  | some (k, _) => k != ""

/-- Whether some token of the list supplies the key `k` (its text before
the first `'='` is `k`). -/
def SuppliedKey (tokens : List String) (k : String) : Bool :=
  tokens.any fun t =>
    match splitOnceEq t with
    | some (k0, _) => k0 == k
    | none => false

/-- The value of the last token (in token order) whose key is `k`: later
tokens take precedence over earlier ones. -/
def lastValueOf (tokens : List String) (k : String) : Option String :=
  match tokens with
  | [] => none
  | t :: rest =>
    (lastValueOf rest k).or
      (match splitOnceEq t with
        | some (k0, v) => if k0 = k then some v else none
        | none => none)

/-- The map produced by a successful `parse_prompt_inputs` run (the empty
map if parsing fails). -/
def promptInputsMap (tokens : List String) : List (String × String) :=
  match parse_prompt_inputs tokens with
  | .ok m => m
  | .error _ => []

/-- A string of the exact shape of a `PROMPT_ARG_REGEX` match name:
a leading `A`–`Z` followed by `[A-Z0-9_]` characters. -/
def ValidName (k : String) : Bool :=
  match k.data with
  | [] => false
  | c :: rest => isUpperAZ c && rest.all isNameChar

/-! Section: Lemmas about the association-list map -/

theorem lookupAssoc_insertAssoc {α : Type} (m : List (String × α)) (ki k : String) (v : α) :
    lookupAssoc (insertAssoc m ki v) k = if ki = k then some v else lookupAssoc m k := by
  induction m with
  | nil => simp [insertAssoc, lookupAssoc]
  | cons hd tl ih =>
    obtain ⟨k0, v0⟩ := hd
    by_cases h0 : k0 = ki
    · subst h0
      by_cases hk : k0 = k
      · subst hk
        simp [insertAssoc, lookupAssoc]
      · simp [insertAssoc, lookupAssoc, hk]
    · by_cases hk : k0 = k
      · subst hk
        have hne : ¬ ki = k0 := fun h => h0 h.symm
        simp [insertAssoc, lookupAssoc, h0, hne]
      · simp [insertAssoc, lookupAssoc, h0, hk, ih]

theorem lookupAssoc_append {α : Type} (m1 m2 : List (String × α)) (k : String) :
    lookupAssoc (m1 ++ m2) k = (lookupAssoc m1 k).or (lookupAssoc m2 k) := by
  induction m1 with
  | nil => simp [lookupAssoc]
  | cons hd tl ih =>
    obtain ⟨k0, v0⟩ := hd
    by_cases hk : k0 = k
    · simp [lookupAssoc, hk]
    · simp [lookupAssoc, hk, ih]

theorem insertAssoc_of_not_contains {α : Type} (m : List (String × α)) (k : String) (v : α)
    (h : containsKey m k = false) : insertAssoc m k v = m ++ [(k, v)] := by
  induction m with
  | nil => simp [insertAssoc]
  | cons hd tl ih =>
    obtain ⟨k0, v0⟩ := hd
    by_cases hk : k0 = k
    · exfalso
      simp [containsKey, lookupAssoc, hk] at h
    · simp only [insertAssoc, if_neg hk, List.cons_append, List.cons.injEq, true_and]
      apply ih
      simpa [containsKey, lookupAssoc, hk] using h

/-! Section: Lemmas about token parsing -/

theorem lastValueOf_isSome (tokens : List String) (k : String) :
    (lastValueOf tokens k).isSome = SuppliedKey tokens k := by
  induction tokens with
  | nil => simp [lastValueOf, SuppliedKey]
  | cons t rest ih =>
    simp only [lastValueOf, SuppliedKey, List.any_cons, Option.isSome_or]
    rw [show (SuppliedKey rest k) = rest.any _ from rfl] at ih
    rw [ih, Bool.or_comm]
    congr 1
    match hs : splitOnceEq t with
    | none => simp
    | some (k0, v) =>
      by_cases hk : k0 = k
      · simp [hk]
      · simp [hk, fun h => hk (String.ext (by simpa using congrArg String.data h))]

theorem parsePromptInputsAux_wf (tokens : List String) :
    ∀ m0 : List (String × String), (∀ t ∈ tokens, wellFormedToken t = true) →
      ∃ m, parsePromptInputsAux m0 tokens = .ok m ∧
        ∀ k, lookupAssoc m k = (lastValueOf tokens k).or (lookupAssoc m0 k) := by
  induction tokens with
  | nil =>
    intro m0 _
    exact ⟨m0, rfl, fun k => by simp [lastValueOf]⟩
  | cons t rest ih =>
    intro m0 hwf
    have hwt : wellFormedToken t = true := hwf t (by simp)
    match hs : splitOnceEq t with
    | none => simp [wellFormedToken, hs] at hwt
    | some (key, value) =>
      have hkey : ¬ key = "" := by
        simpa [wellFormedToken, hs] using hwt
      obtain ⟨m, hm, hlook⟩ :=
        ih (insertAssoc m0 key value) (fun u hu => hwf u (by simp [hu]))
      refine ⟨m, ?_, ?_⟩
      · simpa [parsePromptInputsAux, hs, hkey] using hm
      · intro k
        rw [hlook k, lookupAssoc_insertAssoc]
        simp only [lastValueOf, hs]
        rw [Option.or_assoc]
        congr 1
        by_cases hk : key = k
        · simp [hk]
        · simp [hk]

theorem parsePromptInputsAux_error (t : String) (ht : wellFormedToken t = false) :
    ∀ (pre : List String) (rest : List String) (m0 : List (String × String)),
      (∀ u ∈ pre, wellFormedToken u = true) →
      parsePromptInputsAux m0 (pre ++ t :: rest) =
        .error (if (splitOnceEq t).isNone then .MissingAssignment t else .MissingKey t) := by
  intro pre
  induction pre with
  | nil =>
    intro rest m0 _
    match hs : splitOnceEq t with
    | none => simp [parsePromptInputsAux, hs]
    | some (key, value) =>
      have hkey : key = "" := by
        by_contra hne
        simp [wellFormedToken, hs, hne] at ht
      simp [parsePromptInputsAux, hs, hkey]
  | cons u pre ih =>
    intro rest m0 hpre
    have hu : wellFormedToken u = true := hpre u (by simp)
    match hs : splitOnceEq u with
    | none => simp [wellFormedToken, hs] at hu
    | some (key, value) =>
      have hkey : ¬ key = "" := by
        simpa [wellFormedToken, hs] using hu
      simpa [parsePromptInputsAux, hs, hkey] using
        ih rest (insertAssoc m0 key value) (fun w hw => hpre w (by simp [hw]))

/-! Section: Step lemmas for the numeric scanners -/

set_option maxHeartbeats 4000000 in
theorem expandPlaceholdersAux_copy (args : List String) (c : Char) (cs : List Char)
    (h : ¬ c = '$') :
    expandPlaceholdersAux args (c :: cs) = c :: expandPlaceholdersAux args cs := by
  rw [expandPlaceholdersAux.eq_def]
  split
  · simp_all
  · simp_all
  · simp_all
  · simp_all
  · rename_i c0 cs0 _ _ _ heq
    injection heq with h1 h2
    subst h1
    subst h2
    rfl

set_option maxHeartbeats 4000000 in
theorem expandPlaceholdersAux_digit (args : List String) (d : Char) (rest : List Char)
    (hd : isDigit19 d = true) :
    expandPlaceholdersAux args ('$' :: d :: rest) =
      (match args[d.toNat - '1'.toNat]? with
        | some a => a.data
        | none => []) ++ expandPlaceholdersAux args rest := by
  have hne : ¬ d = '$' := by
    intro h
    subst h
    simp [isDigit19] at hd
  have hne2 : ¬ d = 'A' := by
    intro h
    subst h
    simp [isDigit19] at hd
  rw [expandPlaceholdersAux.eq_def]
  split
  · simp_all
  · simp_all
  · simp_all
  · rename_i c2 cs2 heq
    simp only [List.cons.injEq] at heq
    obtain ⟨-, hc2, hcs2⟩ := heq
    subst hc2
    subst hcs2
    simp [hd]
  · rename_i x c0 cs0 hn1 hn2 hn3 heq
    injection heq with h1 h2
    exact absurd h2.symm (hn3 d rest h1.symm)

set_option maxHeartbeats 4000000 in
theorem expandPlaceholdersAux_defaultDollar (args : List String) (c2 : Char)
    (cs2 : List Char) (h1 : ¬ c2 = '$') (h2 : isDigit19 c2 = false)
    (h3 : ¬ ("ARGUMENTS".data.isPrefixOf (c2 :: cs2) = true)) :
    expandPlaceholdersAux args ('$' :: c2 :: cs2) =
      '$' :: c2 :: expandPlaceholdersAux args cs2 := by
  rw [expandPlaceholdersAux.eq_def]
  split
  · simp_all
  · rename_i cs2' heq
    injection heq with ha hb
    injection hb with hb1 hb2
    exact absurd hb1 h1
  · rename_i rest heq
    injection heq with ha hb
    exfalso
    apply h3
    rw [show ("ARGUMENTS".data) = ['A','R','G','U','M','E','N','T','S'] from rfl, hb]
    simp [List.isPrefixOf]
  · rename_i c2' cs2' heq
    simp only [List.cons.injEq] at heq
    obtain ⟨-, hc2, hcs2⟩ := heq
    subst hc2
    subst hcs2
    simp [h2]
  · rename_i x c0 cs0 hn1 hn2 hn3 heq
    injection heq with ha hb
    exact absurd hb.symm (hn3 c2 cs2 ha.symm)

set_option maxHeartbeats 4000000 in
theorem expandNumericPlaceholdersAux_copy (args : List String) (c : Char) (cs : List Char)
    (h : ¬ c = '$') :
    expandNumericPlaceholdersAux args (c :: cs) = c :: expandNumericPlaceholdersAux args cs := by
  rw [expandNumericPlaceholdersAux.eq_def]
  split
  · simp_all
  · simp_all
  · simp_all
  · simp_all
  · rename_i c0 cs0 _ _ _ heq
    injection heq with h1 h2
    subst h1
    subst h2
    rfl

set_option maxHeartbeats 4000000 in
theorem expandNumericPlaceholdersAux_digit (args : List String) (d : Char) (rest : List Char)
    (hd : isDigit19 d = true) :
    expandNumericPlaceholdersAux args ('$' :: d :: rest) =
      (match args[d.toNat - '1'.toNat]? with
        | some a => a.data
        | none => []) ++ expandNumericPlaceholdersAux args rest := by
  have hne : ¬ d = '$' := by
    intro h
    subst h
    simp [isDigit19] at hd
  have hne2 : ¬ d = 'A' := by
    intro h
    subst h
    simp [isDigit19] at hd
  rw [expandNumericPlaceholdersAux.eq_def]
  split
  · simp_all
  · simp_all
  · simp_all
  · rename_i c2 cs2 heq
    simp only [List.cons.injEq] at heq
    obtain ⟨-, hc2, hcs2⟩ := heq
    subst hc2
    subst hcs2
    simp [hd]
  · rename_i x c0 cs0 hn1 hn2 hn3 heq
    injection heq with h1 h2
    exact absurd h2.symm (hn3 d rest h1.symm)

set_option maxHeartbeats 4000000 in
theorem expandNumericPlaceholdersAux_defaultDollar (args : List String) (c2 : Char)
    (cs2 : List Char) (h1 : ¬ c2 = '$') (h2 : isDigit19 c2 = false)
    (h3 : ¬ ("ARGUMENTS".data.isPrefixOf (c2 :: cs2) = true)) :
    expandNumericPlaceholdersAux args ('$' :: c2 :: cs2) =
      '$' :: c2 :: expandNumericPlaceholdersAux args cs2 := by
  rw [expandNumericPlaceholdersAux.eq_def]
  split
  · simp_all
  · rename_i cs2' heq
    injection heq with ha hb
    injection hb with hb1 hb2
    exact absurd hb1 h1
  · rename_i rest heq
    injection heq with ha hb
    exfalso
    apply h3
    rw [show ("ARGUMENTS".data) = ['A','R','G','U','M','E','N','T','S'] from rfl, hb]
    simp [List.isPrefixOf]
  · rename_i c2' cs2' heq
    simp only [List.cons.injEq] at heq
    obtain ⟨-, hc2, hcs2⟩ := heq
    subst hc2
    subst hcs2
    simp [h2]
  · rename_i x c0 cs0 hn1 hn2 hn3 heq
    injection heq with ha hb
    exact absurd hb.symm (hn3 c2 cs2 ha.symm)

/-- Every number below a length bound: the two numeric scanners agree. -/
theorem expandAux_eq_bounded (args : List String) :
    ∀ (n : Nat) (cs : List Char), cs.length ≤ n →
      expandPlaceholdersAux args cs = expandNumericPlaceholdersAux args cs := by
  intro n
  induction n with
  | zero =>
    intro cs hcs
    have h : cs = [] := List.length_eq_zero.mp (Nat.le_zero.mp hcs)
    subst h
    rfl
  | succ n ih =>
    intro cs hcs
    rcases cs with _ | ⟨c, cs'⟩
    · rfl
    · by_cases hc : c = '$'
      · subst hc
        rcases cs' with _ | ⟨c2, cs2⟩
        · rfl
        · by_cases hc2 : c2 = '$'
          · subst hc2
            have e1 : expandPlaceholdersAux args ('$' :: '$' :: cs2) =
                '$' :: '$' :: expandPlaceholdersAux args cs2 := rfl
            have e2 : expandNumericPlaceholdersAux args ('$' :: '$' :: cs2) =
                '$' :: '$' :: expandNumericPlaceholdersAux args cs2 := rfl
            rw [e1, e2]
            have hlen : cs2.length ≤ n := by
              simp only [List.length_cons] at hcs
              omega
            rw [ih cs2 hlen]
          · by_cases hd : isDigit19 c2
            · rw [expandPlaceholdersAux_digit args c2 cs2 hd,
                expandNumericPlaceholdersAux_digit args c2 cs2 hd]
              have hlen : cs2.length ≤ n := by
                simp only [List.length_cons] at hcs
                omega
              rw [ih cs2 hlen]
            · by_cases harg : "ARGUMENTS".data.isPrefixOf (c2 :: cs2) = true
              · obtain ⟨rest, hrest⟩ := List.isPrefixOf_iff_prefix.mp harg
                rw [← hrest]
                have hlen : rest.length ≤ n := by
                  have h2 := congrArg List.length hrest
                  rw [List.length_append, show ("ARGUMENTS".data).length = 9 from rfl] at h2
                  simp only [List.length_cons] at h2 hcs
                  omega
                exact congrArg
                  (fun l => (if args.isEmpty then [] else (String.intercalate " " args).data) ++ l)
                  (ih rest hlen)
              · rw [expandPlaceholdersAux_defaultDollar args c2 cs2 hc2
                    (Bool.eq_false_iff.mpr hd) harg,
                  expandNumericPlaceholdersAux_defaultDollar args c2 cs2 hc2
                    (Bool.eq_false_iff.mpr hd) harg]
                have hlen : cs2.length ≤ n := by
                  simp only [List.length_cons] at hcs
                  omega
                rw [ih cs2 hlen]
      · rw [expandPlaceholdersAux_copy args c cs' hc,
          expandNumericPlaceholdersAux_copy args c cs' hc]
        have hlen : cs'.length ≤ n := by
          simp only [List.length_cons] at hcs
          omega
        rw [ih cs' hlen]

/-- Prefixes free of `'$'` are copied verbatim by the scanner and leave the
scan of the remainder unchanged. -/
theorem expandPlaceholdersAux_copyPrefix (args : List String) (pre cs : List Char)
    (h : '$' ∉ pre) :
    expandPlaceholdersAux args (pre ++ cs) = pre ++ expandPlaceholdersAux args cs := by
  induction pre with
  | nil => rfl
  | cons c pre ih =>
    have hc : ¬ c = '$' := fun hc => h (by simp [hc])
    rw [List.cons_append, expandPlaceholdersAux_copy args c (pre ++ cs) hc,
      ih (fun hm => h (by simp [hm])), List.cons_append]

/-- Prefixes free of `'$'` are copied verbatim by the prompt-side numeric
scanner as well. -/
theorem expandNumericPlaceholdersAux_copyPrefix (args : List String) (pre cs : List Char)
    (h : '$' ∉ pre) :
    expandNumericPlaceholdersAux args (pre ++ cs) =
      pre ++ expandNumericPlaceholdersAux args cs := by
  induction pre with
  | nil => rfl
  | cons c pre ih =>
    have hc : ¬ c = '$' := fun hc => h (by simp [hc])
    rw [List.cons_append, expandNumericPlaceholdersAux_copy args c (pre ++ cs) hc,
      ih (fun hm => h (by simp [hm])), List.cons_append]

/-! Section: Claims C9, C4, C3: numeric dialect -/

/-- Claim C9: the numeric expansion function used for custom commands and
the numeric expansion function used for custom prompts are extensionally
equal — for every template string and every positional argument list,
`expand_placeholders` (command path) and `expand_numeric_placeholders`
(prompt path) return identical output strings. -/
theorem claim_C9_numeric_expanders_equal (content : String) (args : List String) :
    expand_placeholders content args = expand_numeric_placeholders content args :=
  congrArg String.mk
    (expandAux_eq_bounded args content.data.length content.data le_rfl)

/-- Claim C4: in the numeric dialect, whenever the scan reaches `$$` (all
text before it free of `'$'`, hence copied verbatim), both numeric
expanders emit the literal two-character sequence `$$` — never a collapsed
single `'$'` and never a placeholder — and the scan continues after those
two characters. -/
theorem claim_C4_double_dollar_literal (args : List String) (pre t : List Char)
    (h : '$' ∉ pre) :
    expandPlaceholdersAux args (pre ++ '$' :: '$' :: t) =
        pre ++ '$' :: '$' :: expandPlaceholdersAux args t
    ∧ expandNumericPlaceholdersAux args (pre ++ '$' :: '$' :: t) =
        pre ++ '$' :: '$' :: expandNumericPlaceholdersAux args t := by
  constructor
  · rw [expandPlaceholdersAux_copyPrefix args pre ('$' :: '$' :: t) h]
    rfl
  · rw [expandNumericPlaceholdersAux_copyPrefix args pre ('$' :: '$' :: t) h]
    rfl

/-- Claim C4 witness at `args = ["x"]`, `pre = ['a']`, `t = ['b']`. -/
theorem claim_C4_double_dollar_literal_witness :
    expandPlaceholdersAux ["x"] (['a'] ++ '$' :: '$' :: ['b']) =
        ['a'] ++ '$' :: '$' :: expandPlaceholdersAux ["x"] ['b']
    ∧ expandNumericPlaceholdersAux ["x"] (['a'] ++ '$' :: '$' :: ['b']) =
        ['a'] ++ '$' :: '$' :: expandNumericPlaceholdersAux ["x"] ['b'] :=
  claim_C4_double_dollar_literal ["x"] ['a'] ['b'] (by decide)

/-- Claim C3: in the numeric dialect, `$` followed by a digit in 1–9
substitutes the `(digit-1)`-indexed argument when it exists and nothing
(silently, never an error) when the index is beyond the argument count —
captured by the optional-index equation together with the fact that the
optional index is `none` exactly when the count is exceeded; `$ARGUMENTS`
substitutes all positional arguments joined by one space when any exist,
else nothing; and the concrete template of the specification expands as
stated. -/
theorem claim_C3_positional_substitution (args : List String) (pre rest : List Char)
    (d : Char) (hpre : '$' ∉ pre) (hd : isDigit19 d = true) :
    expandPlaceholdersAux args (pre ++ '$' :: d :: rest) =
        pre ++ (match args[d.toNat - '1'.toNat]? with
          | some a => a.data
          | none => []) ++ expandPlaceholdersAux args rest
    ∧ (args[d.toNat - '1'.toNat]? = none ↔ args.length ≤ d.toNat - '1'.toNat)
    ∧ expandPlaceholdersAux args
          (pre ++ '$' :: 'A' :: 'R' :: 'G' :: 'U' :: 'M' :: 'E' :: 'N' :: 'T' :: 'S' :: rest) =
        pre ++ (if args.isEmpty then [] else (String.intercalate " " args).data) ++
          expandPlaceholdersAux args rest
    ∧ expand_placeholders "First:$1 Second:$2 All:$ARGUMENTS End:$9" ["prod", "us-west"] =
        "First:prod Second:us-west All:prod us-west End:" := by
  refine ⟨?_, ?_, ?_, by decide⟩
  · rw [expandPlaceholdersAux_copyPrefix args pre ('$' :: d :: rest) hpre,
      expandPlaceholdersAux_digit args d rest hd, List.append_assoc]
  · exact List.getElem?_eq_none_iff
  · rw [expandPlaceholdersAux_copyPrefix args pre
      ('$' :: 'A' :: 'R' :: 'G' :: 'U' :: 'M' :: 'E' :: 'N' :: 'T' :: 'S' :: rest) hpre,
      List.append_assoc]
    rfl

/-- Claim C3 witness at `args = ["prod", "us-west"]`, `pre = ['x']`,
`d = '9'`, `rest = []` (an index beyond the argument count). -/
theorem claim_C3_positional_substitution_witness :
    (expandPlaceholdersAux ["prod", "us-west"] (['x'] ++ '$' :: '9' :: []) =
        ['x'] ++ (match (["prod", "us-west"] : List String)[('9').toNat - '1'.toNat]? with
          | some a => a.data
          | none => []) ++ expandPlaceholdersAux ["prod", "us-west"] []
    ∧ ((["prod", "us-west"] : List String)[('9').toNat - '1'.toNat]? = none ↔
        (["prod", "us-west"] : List String).length ≤ ('9').toNat - '1'.toNat)
    ∧ expandPlaceholdersAux ["prod", "us-west"]
          (['x'] ++ '$' :: 'A' :: 'R' :: 'G' :: 'U' :: 'M' :: 'E' :: 'N' :: 'T' :: 'S' :: []) =
        ['x'] ++ (if (["prod", "us-west"] : List String).isEmpty then []
          else (String.intercalate " " ["prod", "us-west"]).data) ++
          expandPlaceholdersAux ["prod", "us-west"] []
    ∧ expand_placeholders "First:$1 Second:$2 All:$ARGUMENTS End:$9" ["prod", "us-west"] =
        "First:prod Second:us-west All:prod us-west End:") :=
  claim_C3_positional_substitution ["prod", "us-west"] ['x'] [] '9' (by decide) (by decide)

/-! Section: Claims C5, C2, C8, C10: prompt expansion -/

/-- Claim C5: a prompt template with zero qualifying named placeholder
tokens always uses the numeric dialect, whatever tokens the caller
supplies (key=value pairs included), and never returns an `Args` or
`MissingArgs` error. -/
theorem claim_C5_content_driven_dialect (command content : String) (tokens : List String)
    (h : prompt_argument_names content = []) :
    expand_custom_prompt_tokens command content tokens =
      .ok (expand_numeric_placeholders content tokens) := by
  simp only [expand_custom_prompt_tokens, h, List.isEmpty_nil, if_true]

/-- Claim C5 witness: template `hi $1` with key=value-looking tokens. -/
theorem claim_C5_content_driven_dialect_witness :
    expand_custom_prompt_tokens "/prompts:x" "hi $1" ["a=b", "c"] =
      .ok (expand_numeric_placeholders "hi $1" ["a=b", "c"]) :=
  claim_C5_content_driven_dialect "/prompts:x" "hi $1" ["a=b", "c"] (by decide)

/-- Claim C2: with a non-empty required-name list and well-formed
`key=value` tokens, if some required name has no supplied key then prompt
expansion fails with `MissingArgs` carrying exactly the unsupplied
required names in enumeration order, and no expanded output is produced. -/
theorem claim_C2_missing_args (command content : String) (tokens : List String)
    (hreq : prompt_argument_names content ≠ [])
    (hwf : ∀ t ∈ tokens, wellFormedToken t = true)
    (hmiss : ∃ r ∈ prompt_argument_names content, SuppliedKey tokens r = false) :
    expand_custom_prompt_tokens command content tokens =
      .error (.MissingArgs command
        ((prompt_argument_names content).filter fun r => !SuppliedKey tokens r)) := by
  obtain ⟨m, hm, hlook⟩ := parsePromptInputsAux_wf tokens [] hwf
  have hckey : ∀ k, containsKey m k = SuppliedKey tokens k := by
    intro k
    rw [containsKey, hlook k]
    simp only [lookupAssoc, Option.or_none]
    exact lastValueOf_isSome tokens k
  have hfilter : ((prompt_argument_names content).filter fun key => !containsKey m key) =
      (prompt_argument_names content).filter fun r => !SuppliedKey tokens r :=
    List.filter_congr fun r _ => by rw [hckey r]
  have hne : ((prompt_argument_names content).filter fun r => !SuppliedKey tokens r) ≠ [] := by
    obtain ⟨r, hr, hs⟩ := hmiss
    intro hemp
    have hmem : r ∈ (prompt_argument_names content).filter fun r => !SuppliedKey tokens r := by
      simp [List.mem_filter, hr, hs]
    rw [hemp] at hmem
    exact absurd hmem (List.not_mem_nil r)
  simp only [expand_custom_prompt_tokens,
    List.isEmpty_eq_false.mpr hreq, Bool.false_eq_true, if_false,
    show parse_prompt_inputs tokens = .ok m from hm, hfilter,
    List.isEmpty_eq_false.mpr hne]

/-- Claim C2 witness: `Review $USER on $BRANCH` with only `USER=Alice`
fails with exactly `MissingArgs ["BRANCH"]`. -/
theorem claim_C2_missing_args_witness :
    expand_custom_prompt_tokens "/prompts:review" "Review $USER on $BRANCH" ["USER=Alice"] =
      .error (.MissingArgs "/prompts:review"
        ((prompt_argument_names "Review $USER on $BRANCH").filter
          fun r => !SuppliedKey ["USER=Alice"] r)) :=
  claim_C2_missing_args "/prompts:review" "Review $USER on $BRANCH" ["USER=Alice"]
    (by decide) (by decide) (by decide)

/-- Claim C8: in the named dialect, when the scan of caller tokens reaches
a token with no `=`, expansion fails with `MissingAssignment` carrying that
token; when it reaches a token with an empty key before `=`, it fails with
`MissingKey` carrying that token; in both cases the failure precedes any
substitution, so no output is produced. -/
theorem claim_C8_token_errors (command content : String) (pre rest : List String)
    (t : String) (hreq : prompt_argument_names content ≠ [])
    (hpre : ∀ u ∈ pre, wellFormedToken u = true)
    (ht : wellFormedToken t = false) :
    expand_custom_prompt_tokens command content (pre ++ t :: rest) =
      .error (.Args command
        (if (splitOnceEq t).isNone then .MissingAssignment t else .MissingKey t)) := by
  have herr := parsePromptInputsAux_error t ht pre rest [] hpre
  simp only [expand_custom_prompt_tokens,
    List.isEmpty_eq_false.mpr hreq, Bool.false_eq_true, if_false,
    show parse_prompt_inputs (pre ++ t :: rest) = _ from herr]

/-- Claim C8 witness: template `Review $USER`, tokens `["USER=A", "oops"]`
(second token has no `=`). -/
theorem claim_C8_token_errors_witness :
    expand_custom_prompt_tokens "/prompts:review" "Review $USER" (["USER=A"] ++ "oops" :: []) =
      .error (.Args "/prompts:review"
        (if (splitOnceEq "oops").isNone then .MissingAssignment "oops"
         else .MissingKey "oops")) :=
  claim_C8_token_errors "/prompts:review" "Review $USER" ["USER=A"] [] "oops"
    (by decide) (by decide) (by decide)

/-- Inside a match, the scanner consumes a run of name characters whole and
then emits the completed match. -/
theorem expandNamedAux_allName (m : List (String × String)) (esc : Bool) (cs : List Char)
    (h : ∀ c ∈ cs, isNameChar c = true) :
    ∀ acc, expandNamedAux m (.inName esc acc) cs = emitName m esc (acc ++ cs) := by
  induction cs with
  | nil =>
    intro acc
    simp [expandNamedAux]
  | cons c cs ih =>
    intro acc
    have hc : isNameChar c = true := h c (by simp)
    rw [show expandNamedAux m (.inName esc acc) (c :: cs) =
        expandNamedAux m (.inName esc (acc ++ [c])) cs by simp [expandNamedAux, hc]]
    rw [ih (fun c hc => h c (by simp [hc])) (acc ++ [c]), List.append_assoc]
    rfl

/-- Claim C10: in the named dialect, duplicate well-formed `key=value`
tokens raise no error and the value of the last token with a given key (in
token order) is the one the substitution map holds for that key — so it is
what `expand_named_placeholders` substitutes wherever that key's
placeholder occurs, as witnessed on the placeholder itself. -/
theorem claim_C10_last_duplicate_wins (command content : String) (tokens : List String)
    (k v : String) (hwf : ∀ t ∈ tokens, wellFormedToken t = true)
    (hlast : lastValueOf tokens k = some v)
    (hreq : prompt_argument_names content ≠ [])
    (hsup : ∀ r ∈ prompt_argument_names content, SuppliedKey tokens r = true)
    (hname : ValidName k = true) :
    parse_prompt_inputs tokens = .ok (promptInputsMap tokens)
    ∧ lookupAssoc (promptInputsMap tokens) k = some v
    ∧ expand_custom_prompt_tokens command content tokens =
        .ok (expand_named_placeholders content (promptInputsMap tokens))
    ∧ expand_named_placeholders ⟨'$' :: k.data⟩ (promptInputsMap tokens) = v := by
  obtain ⟨m, hm, hlook⟩ := parsePromptInputsAux_wf tokens [] hwf
  have hpm : promptInputsMap tokens = m := by
    simp only [promptInputsMap, show parse_prompt_inputs tokens = .ok m from hm]
  have hk : lookupAssoc m k = some v := by
    rw [hlook k, hlast]
    rfl
  have hckey : ∀ r, containsKey m r = SuppliedKey tokens r := by
    intro r
    rw [containsKey, hlook r]
    simp only [lookupAssoc, Option.or_none]
    exact lastValueOf_isSome tokens r
  refine ⟨?_, ?_, ?_, ?_⟩
  · rw [hpm]
    exact hm
  · rw [hpm]
    exact hk
  · have hfilter : ((prompt_argument_names content).filter fun key => !containsKey m key) = [] := by
      rw [List.filter_eq_nil_iff]
      intro r hr
      simp [hckey r, hsup r hr]
    rw [hpm]
    simp only [expand_custom_prompt_tokens,
      List.isEmpty_eq_false.mpr hreq, Bool.false_eq_true, if_false,
      show parse_prompt_inputs tokens = .ok m from hm, hfilter, List.isEmpty_nil, if_true]
  · rw [hpm]
    have hdecomp : ∃ kc krest, k.data = kc :: krest ∧ isUpperAZ kc = true ∧
        ∀ c ∈ krest, isNameChar c = true := by
      match hdata : k.data with
      | [] =>
        rw [ValidName, hdata] at hname
        exact absurd hname (by simp)
      | kc :: krest =>
        rw [ValidName, hdata] at hname
        simp only [Bool.and_eq_true, List.all_eq_true] at hname
        exact ⟨kc, krest, rfl, hname.1, hname.2⟩
    obtain ⟨kc, krest, hdata, hkc, hkrest⟩ := hdecomp
    have step1 : expandNamedAux m .norm ('$' :: kc :: krest) =
        expandNamedAux m (.inName false [kc]) krest := by
      simp [expandNamedAux, hkc]
    have step2 : expandNamedAux m (.inName false [kc]) krest =
        emitName m false (kc :: krest) :=
      expandNamedAux_allName m false krest (fun c hc => hkrest c hc) [kc]
    have hemit : emitName m false (kc :: krest) = v.data := by
      rw [emitName]
      simp only [Bool.false_eq_true, if_false]
      rw [show String.mk (kc :: krest) = k from hdata ▸ rfl, hk]
    show String.mk (expandNamedAux m .norm ('$' :: k.data)) = v
    rw [hdata, step1, step2, hemit]

/-- Claim C10 witness: tokens `USER=Alice` then `USER=Bob`; the later value
`Bob` wins without any error. -/
theorem claim_C10_last_duplicate_wins_witness :
    parse_prompt_inputs ["USER=Alice", "USER=Bob"] =
        .ok (promptInputsMap ["USER=Alice", "USER=Bob"])
    ∧ lookupAssoc (promptInputsMap ["USER=Alice", "USER=Bob"]) "USER" = some "Bob"
    ∧ expand_custom_prompt_tokens "/prompts:x" "Review $USER" ["USER=Alice", "USER=Bob"] =
        .ok (expand_named_placeholders "Review $USER"
          (promptInputsMap ["USER=Alice", "USER=Bob"]))
    ∧ expand_named_placeholders ⟨'$' :: ("USER").data⟩
        (promptInputsMap ["USER=Alice", "USER=Bob"]) = "Bob" :=
  claim_C10_last_duplicate_wins "/prompts:x" "Review $USER" ["USER=Alice", "USER=Bob"]
    "USER" "Bob" (by decide) (by decide) (by decide) (by decide) (by decide)

/-! Section: Claims C7, C6: discovery error handling -/

/-- A markdown candidate whose stem is reserved is rejected with the
conflict error, produces no entry, and leaves the seen-set untouched. -/
theorem processCandidate_reserved (yamlP : String → Except String YamlValue)
    (scope : CustomCommandScope) (acc : RootAcc) (f : CandidateFile)
    (hm : is_markdown f.fileName = true)
    (hr : fileStem f.fileName ∈ RESERVED_COMMAND_NAMES) :
    processCandidate yamlP scope acc f =
      ⟨acc.commands,
       acc.errors ++
         [⟨f.path, "`/" ++ fileStem f.fileName ++ "` conflicts with a built-in command name"⟩],
       acc.seen⟩ := by
  simp [processCandidate, hm, hr]

/-- Claim C7: a candidate file whose derived name (base name with the
extension stripped) is a reserved built-in command name is rejected with
the "conflicts with a built-in command name" error, contributes no catalog
entry, and is not inserted into the scope's seen-set — so a later file with
the same reserved name is again rejected as reserved, never as a
duplicate; in particular a lone `init.md` yields zero entries and exactly
the conflict error. -/
theorem claim_C7_reserved_names (yamlP : String → Except String YamlValue)
    (scope : CustomCommandScope) (acc : RootAcc) (f g : CandidateFile)
    (hmf : is_markdown f.fileName = true)
    (hrf : fileStem f.fileName ∈ RESERVED_COMMAND_NAMES)
    (hmg : is_markdown g.fileName = true)
    (hrg : fileStem g.fileName ∈ RESERVED_COMMAND_NAMES) :
    processCandidate yamlP scope acc f =
      ⟨acc.commands,
       acc.errors ++
         [⟨f.path, "`/" ++ fileStem f.fileName ++ "` conflicts with a built-in command name"⟩],
       acc.seen⟩
    ∧ List.foldl (processCandidate yamlP scope) acc [f, g] =
      ⟨acc.commands,
       acc.errors ++
         [⟨f.path, "`/" ++ fileStem f.fileName ++ "` conflicts with a built-in command name"⟩,
          ⟨g.path, "`/" ++ fileStem g.fileName ++ "` conflicts with a built-in command name"⟩],
       acc.seen⟩
    ∧ discover_commands_in_root yamlP scope [⟨"commands/init.md", "init.md", "nope", none⟩] =
      ([], [⟨"commands/init.md", "`/init` conflicts with a built-in command name"⟩]) := by
  refine ⟨processCandidate_reserved yamlP scope acc f hmf hrf, ?_, rfl⟩
  show processCandidate yamlP scope (processCandidate yamlP scope acc f) g = _
  rw [processCandidate_reserved yamlP scope acc f hmf hrf,
    processCandidate_reserved yamlP scope _ g hmg hrg, List.append_assoc]
  rfl

/-- Claim C7 witness: two sibling `init.md` candidates in one walk are both
rejected as reserved (duplicate detection never fires). -/
theorem claim_C7_reserved_names_witness :
    processCandidate (fun _ => .error "no yaml") CustomCommandScope.User ⟨[], [], []⟩
        ⟨"a/init.md", "init.md", "x", none⟩ =
      ⟨[], [⟨"a/init.md", "`/" ++ fileStem "init.md" ++ "` conflicts with a built-in command name"⟩], []⟩
    ∧ List.foldl (processCandidate (fun _ => .error "no yaml") CustomCommandScope.User)
        ⟨[], [], []⟩
        [⟨"a/init.md", "init.md", "x", none⟩, ⟨"b/init.md", "init.md", "y", none⟩] =
      ⟨[], [⟨"a/init.md", "`/" ++ fileStem "init.md" ++ "` conflicts with a built-in command name"⟩,
            ⟨"b/init.md", "`/" ++ fileStem "init.md" ++ "` conflicts with a built-in command name"⟩], []⟩
    ∧ discover_commands_in_root (fun _ => .error "no yaml") CustomCommandScope.User
        [⟨"commands/init.md", "init.md", "nope", none⟩] =
      ([], [⟨"commands/init.md", "`/init` conflicts with a built-in command name"⟩]) :=
  claim_C7_reserved_names (fun _ => .error "no yaml") CustomCommandScope.User ⟨[], [], []⟩
    ⟨"a/init.md", "init.md", "x", none⟩ ⟨"b/init.md", "init.md", "y", none⟩
    (by decide) (by decide) (by decide) (by decide)

/-- Segments none of which trims to the delimiter yield no closing
delimiter. -/
theorem findFrontmatterClose_none (segs : List (List Char))
    (h : ∀ seg ∈ segs, trimChars (trimEndNl seg) ≠ "---".data) :
    findFrontmatterClose segs = none := by
  induction segs with
  | nil => rfl
  | cons seg segs ih =>
    rw [findFrontmatterClose, if_neg (h seg (by simp)),
      ih fun s hs => h s (by simp [hs])]

/-- Claim C6: a file whose first line (after trimming the trailing
carriage return / newline) is the delimiter `---` but which has no later
line trimming to `---` fails frontmatter parsing with the unterminated-
header error (spelled `unterminated frontmatter block` by the code), and
in a discovery walk such a file contributes only that error while a
sibling valid file still yields its catalog entry. -/
theorem claim_C6_unterminated_header (yamlP : String → Except String YamlValue)
    (scope : CustomCommandScope) (content : String) (firstSeg : List Char)
    (segs : List (List Char))
    (h1 : splitInclusiveNl content.data = firstSeg :: segs)
    (h2 : trimEndNl firstSeg = "---".data)
    (h3 : ∀ seg ∈ segs, trimChars (trimEndNl seg) ≠ "---".data) :
    parse_frontmatter yamlP content = .error "unterminated frontmatter block"
    ∧ discover_commands_in_root yamlP scope
        [⟨"commands/bad.md", "bad.md", "---\nfoo: bar", none⟩,
         ⟨"commands/good.md", "good.md", "run", none⟩] =
      ([⟨"good", "commands/good.md", "run", none, none, none, none, none, scope, none⟩],
       [⟨"commands/bad.md", "unterminated frontmatter block"⟩]) := by
  constructor
  · have hclose := findFrontmatterClose_none segs h3
    have heq : trimChars (trimEndNl firstSeg) = "---".data := by
      rw [h2]
      decide
    simp only [parse_frontmatter, h1, heq, hclose, ne_eq, not_true_eq_false, if_false]
  · rfl

/-- Claim C6 witness: the concrete unterminated file `---\nfoo: bar`. -/
theorem claim_C6_unterminated_header_witness :
    parse_frontmatter (fun _ => .error "no yaml") "---\nfoo: bar" =
        .error "unterminated frontmatter block"
    ∧ discover_commands_in_root (fun _ => .error "no yaml") CustomCommandScope.Project
        [⟨"commands/bad.md", "bad.md", "---\nfoo: bar", none⟩,
         ⟨"commands/good.md", "good.md", "run", none⟩] =
      ([⟨"good", "commands/good.md", "run", none, none, none, none, none,
          CustomCommandScope.Project, none⟩],
       [⟨"commands/bad.md", "unterminated frontmatter block"⟩]) :=
  claim_C6_unterminated_header (fun _ => .error "no yaml") CustomCommandScope.Project
    "---\nfoo: bar" "---\n".data ["foo: bar".data]
    (by decide) (by decide) (by decide)

/-! Section: Claim C1: scope merge -/

/-- Keying commands by a run of fresh, pairwise-distinct names appends
their bindings in order. -/
theorem foldl_insertAssoc_eq (l : List CustomCommand) :
    ∀ m0 : List (String × CustomCommand),
      (∀ c ∈ l, containsKey m0 c.name = false) →
      (l.map CustomCommand.name).Nodup →
      l.foldl (fun m command => insertAssoc m command.name command) m0 =
        m0 ++ l.map fun c => (c.name, c) := by
  induction l with
  | nil =>
    intro m0 _ _
    simp
  | cons c l ih =>
    intro m0 hfresh hnodup
    simp only [List.map_cons, List.nodup_cons, List.mem_map] at hnodup
    obtain ⟨hnotin, hnodup⟩ := hnodup
    simp only [List.foldl_cons]
    rw [insertAssoc_of_not_contains m0 c.name c (hfresh c (by simp))]
    rw [ih (m0 ++ [(c.name, c)]) ?_ hnodup]
    · simp
    · intro c' hc'
      rw [containsKey, lookupAssoc_append]
      have h1 : lookupAssoc m0 c'.name = none := by
        have := hfresh c' (by simp [hc'])
        simpa [containsKey] using this
      have h2 : ¬ c.name = c'.name := fun h => hnotin ⟨c', hc', h.symm⟩
      simp [h1, lookupAssoc, h2]

/-- The keyed map contains a name exactly when some command of the list
bears it. -/
theorem containsKey_mapPair (l : List CustomCommand) (n : String) :
    containsKey (l.map fun c => (c.name, c)) n = true ↔ n ∈ l.map CustomCommand.name := by
  induction l with
  | nil => simp [containsKey, lookupAssoc]
  | cons c l ih =>
    by_cases h : c.name = n
    · simp [containsKey, lookupAssoc, h]
    · simp only [List.map_cons, containsKey, lookupAssoc, if_neg h, List.mem_cons]
      rw [show (lookupAssoc (l.map fun c => (c.name, c)) n).isSome = true ↔
          n ∈ l.map CustomCommand.name from ih]
      have : ¬ n = c.name := fun hn => h hn.symm
      simp [this]

/-- Claim C1: with pairwise-distinct Project names (as per-scope discovery
guarantees through its seen-set), the merged catalog contains a command
exactly when it is a Project entry or a User entry whose name no Project
entry bears — Project fully shadows User by name, with no field-wise
merging — and the returned catalog is sorted by name while the returned
error list is sorted by path. -/
theorem claim_C1_merge_shadowing (project_commands user_commands : List CustomCommand)
    (errors : List CustomCommandErrorInfo) (c : CustomCommand)
    (hnodup : (project_commands.map CustomCommand.name).Nodup) :
    (c ∈ (discover_custom_commands_merge project_commands user_commands errors).1 ↔
      c ∈ project_commands ∨
        (c ∈ user_commands ∧ c.name ∉ project_commands.map CustomCommand.name))
    ∧ List.Sorted cmdNameLE (discover_custom_commands_merge project_commands user_commands errors).1
    ∧ List.Sorted errPathLE (discover_custom_commands_merge project_commands user_commands errors).2 := by
  have hfold : project_commands.foldl (fun m command => insertAssoc m command.name command) [] =
      project_commands.map fun c => (c.name, c) := by
    rw [foldl_insertAssoc_eq project_commands [] (fun _ _ => rfl) hnodup]
    simp
  refine ⟨?_, ?_, ?_⟩
  · simp only [discover_custom_commands_merge, hfold, List.mem_insertionSort,
      List.mem_append, List.mem_filter, List.map_map]
    constructor
    · rintro (hp | ⟨hu, hk⟩)
      · left
        simpa using hp
      · right
        refine ⟨hu, fun hmem => ?_⟩
        rw [Bool.not_eq_true', ← Bool.not_eq_true] at hk
        exact hk (containsKey_mapPair project_commands c.name |>.mpr hmem)
    · rintro (hp | ⟨hu, hk⟩)
      · left
        simpa using hp
      · right
        refine ⟨hu, ?_⟩
        rw [Bool.not_eq_true', ← Bool.not_eq_true]
        intro hc
        exact hk (containsKey_mapPair project_commands c.name |>.mp hc)
  · exact List.sorted_insertionSort cmdNameLE _
  · exact List.sorted_insertionSort errPathLE _

/-- Claim C1 witness: two Project entries, a shadowed and an unshadowed
User entry, and an out-of-order error list. -/
theorem claim_C1_merge_shadowing_witness :
    (sampleUserDeploy ∈
        (discover_custom_commands_merge [sampleProjDeploy, sampleProjHello]
          [sampleUserDeploy, sampleUserZeta]
          [⟨"b/path", "x"⟩, ⟨"a/path", "y"⟩]).1 ↔
      sampleUserDeploy ∈ [sampleProjDeploy, sampleProjHello] ∨
        (sampleUserDeploy ∈ [sampleUserDeploy, sampleUserZeta] ∧
          sampleUserDeploy.name ∉
            ([sampleProjDeploy, sampleProjHello].map CustomCommand.name)))
    ∧ List.Sorted cmdNameLE
        (discover_custom_commands_merge [sampleProjDeploy, sampleProjHello]
          [sampleUserDeploy, sampleUserZeta]
          [⟨"b/path", "x"⟩, ⟨"a/path", "y"⟩]).1
    ∧ List.Sorted errPathLE
        (discover_custom_commands_merge [sampleProjDeploy, sampleProjHello]
          [sampleUserDeploy, sampleUserZeta]
          [⟨"b/path", "x"⟩, ⟨"a/path", "y"⟩]).2 :=
  claim_C1_merge_shadowing [sampleProjDeploy, sampleProjHello]
    [sampleUserDeploy, sampleUserZeta] [⟨"b/path", "x"⟩, ⟨"a/path", "y"⟩]
    sampleUserDeploy (by decide)
